import Mathlib

/-!
Verification of the `diophantine` module (src/diophantine.py).

The module solves a linear Diophantine equation `s*d + t*v = w` (with
`v > 0`) subject to a bound `p <= s <= q` or `p <= t <= q`.  It consists of
three functions:

* `gcd d v qs`   — recursive Euclidean reduction returning the gcd together
  with the list of quotients (the Python function mutates the list `qs`
  passed to it; here the accumulator is passed explicitly and the updated
  list is part of the returned value);
* `lincomb d v`  — extended Euclid: Bézout coefficients by forward
  back-substitution over the quotient list;
* `diophantine d v w p q v_constraint` — enumeration of the solution family
  restricted to the requested bound.

Python raises `ValueError` for a non-positive divisor and for an empty
range, and a division by zero in `diophantine` raises `ZeroDivisionError`;
fallible code is embedded with `Except DioError`.  Python's `divmod`
(floored division) agrees with Lean's `Int.ediv`/`Int.emod` whenever the
divisor is positive, which is the case at every `divmod` in the source.
Python's true division `x / y` followed by `math.ceil`/`math.floor` is
modelled as the exact rational ceiling/floor (`ceilDiv`/`floorDiv` below,
certified against `Int.ceil`/`Int.floor` on `ℚ`).
-/

namespace Diophantine

/-- Failure values of the module: `invalidDivisor` is the
`ValueError("v must be strictly positive")` raised by `gcd`,
`invalidRange` is the `ValueError("p must be less than q")` raised by
`diophantine`, and `zeroDivision` is the `ZeroDivisionError` that Python
raises when `diophantine` divides by `d = 0` in the `v_constraint` branch. -/
inductive DioError where
  | invalidDivisor
  | invalidRange
  | zeroDivision
deriving DecidableEq

/-- Embedding of `gcd(d, v, qs)` from src/diophantine.py:
`q, r = divmod(d, v)` is `d / v` and `d % v` (floored division, the divisor
`v` being positive past the guard); if `r == 0` the pair `(v, qs)` is
returned, otherwise `q` is appended to the quotient list and the function
recurses on `(v, r)`. -/
def gcd (d v : Int) (qs : List Int) : Except DioError (Int × List Int) :=
  if v ≤ 0 then .error .invalidDivisor
  else
    let q := d / v
    let r := d % v
    if r = 0 then .ok (v, qs)
    else gcd v r (qs ++ [q])
termination_by v.toNat
decreasing_by
  have h2 : d % v < v := Int.emod_lt_of_pos d (by omega)
  omega

/-- The forward back-substitution loop of `lincomb`: the Python code grows
two lists `aa`, `bb` by `aa.append(aa[i] - q*aa[i+1])`,
`bb.append(bb[i] - q*bb[i+1])` — each new element is the second-to-last
element minus the current quotient times the last element — and finally
reads off `aa[-1]`, `bb[-1]`.  Only the last two `(a, b)` pairs are ever
consulted, so the loop is carried here as the pair of pairs
`prev = (aa[i], bb[i])`, `cur = (aa[i+1], bb[i+1])`. -/
def backSub (prev cur : Int × Int) : List Int → Int × Int
  | [] => cur
  | q :: qs => backSub cur (prev.1 - q * cur.1, prev.2 - q * cur.2) qs

/-- Embedding of `lincomb(d, v)` from src/diophantine.py: compute the gcd
and quotient list; when the quotient list is empty return `(gd, 0, 1)`,
otherwise seed `aa = [0, 1]`, `bb = [1, -qs[0]]` and run the
back-substitution loop over the remaining quotients `qs[1:]`. -/
def lincomb (d v : Int) : Except DioError (Int × Int × Int) :=
  match gcd d v [] with
  | .error e => .error e
  | .ok (gd, qs) =>
    match qs with
    | [] => .ok (gd, 0, 1)
    | q0 :: rest =>
      let ab := backSub (0, 1) (1, -q0) rest
      .ok (gd, ab.1, ab.2)

/-- Exact value of `floor(x / y)` (`y ≠ 0`), where the division is true
(rational) division as in Python's `(x)/(y)` under `math.floor`.  For
`y > 0` this is `Int.ediv`; for `y < 0` it equals `(-x) / (-y)` because
`x / y = (-x) / (-y)` as rationals.  Certified below by
`floorDiv_eq_floor`. -/
def floorDiv (x y : Int) : Int :=
  if 0 < y then x / y else -x / -y

/-- Exact value of `ceil(x / y)` (`y ≠ 0`), where the division is true
(rational) division as in Python's `(x)/(y)` under `math.ceil`, using
`ceil r = -floor (-r)`.  Certified below by `ceilDiv_eq_ceil`. -/
def ceilDiv (x y : Int) : Int :=
  if 0 < y then -(-x / y) else -(x / -y)

/-- Embedding of the solution loop of `diophantine`:
`for n in range(int(lower), int(upper)+1): sols.append((m*a+n*v, m*b-n*d))`. -/
def solRange (m a b d v lower upper : Int) : List (Int × Int) :=
  (List.range (upper + 1 - lower).toNat).map
    fun (k : Nat) =>
      (m * a + (lower + (k : Int)) * v, m * b - (lower + (k : Int)) * d)

/-- Embedding of `diophantine(d, v, w, p, q, v_constraint)` from
src/diophantine.py.  The range guard comes first; then
`gd, _ = gcd(d, v, [])`, `m, r = divmod(w, gd)` (the divisor `gd` is
positive whenever `gcd` succeeds, so `divmod` is again `ediv`/`emod`); a
non-zero remainder returns the empty list; otherwise the Bézout
coefficients are fetched and the bound on `n` is computed by the
sign-dependent ceiling/floor formulas of the source.  In the final branch
(`v_constraint` true, `d ≤ 0`) Python divides by `d`, which raises
`ZeroDivisionError` when `d = 0`. -/
def diophantine (d v w p q : Int) (v_constraint : Bool) :
    Except DioError (List (Int × Int)) :=
  if p ≥ q then .error .invalidRange
  else
    match gcd d v [] with
    | .error e => .error e
    | .ok (gd, _) =>
      let m := w / gd
      let r := w % gd
      if r ≠ 0 then .ok []
      else
        match lincomb d v with
        | .error e => .error e
        | .ok (_, a, b) =>
          if v_constraint = false then
            .ok (solRange m a b d v (ceilDiv (p - m * a) v) (floorDiv (q - m * a) v))
          else if 0 < d then
            .ok (solRange m a b d v (ceilDiv (m * b - q) d) (floorDiv (m * b - p) d))
          else if d = 0 then
            .error .zeroDivision
          else
            .ok (solRange m a b d v (ceilDiv (m * b - p) d) (floorDiv (m * b - q) d))

/-! ### Unfolding lemmas for the recursive reducer -/

/-- A non-positive divisor fails immediately. -/
theorem gcd_eq_error (d v : Int) (qs : List Int) (h : v ≤ 0) :
    gcd d v qs = .error .invalidDivisor := by
  rw [gcd.eq_def]; simp [h]

/-- Terminal step of the reduction: zero remainder returns the divisor. -/
theorem gcd_eq_last (d v : Int) (qs : List Int) (h1 : 0 < v) (h2 : d % v = 0) :
    gcd d v qs = .ok (v, qs) := by
  rw [gcd.eq_def]
  simp [h1.not_le, h2, Int.dvd_of_emod_eq_zero h2]

/-- Recursive step of the reduction. -/
theorem gcd_eq_step (d v : Int) (qs : List Int) (h1 : 0 < v) (h2 : d % v ≠ 0) :
    gcd d v qs = gcd v (d % v) (qs ++ [d / v]) := by
  rw [gcd.eq_def]
  simp only [h1.not_le, if_false]
  simp [h2, fun h => h2 (Int.emod_eq_zero_of_dvd h)]

/-! ### Certification of `floorDiv` and `ceilDiv` against rational floor/ceil -/

/-- Characterisation of `floorDiv` for a positive divisor:
`n ≤ floorDiv x y ↔ n * y ≤ x`. -/
theorem le_floorDiv_iff_pos (x y n : Int) (hy : 0 < y) :
    n ≤ floorDiv x y ↔ n * y ≤ x := by
  rw [floorDiv, if_pos hy]
  exact Int.le_ediv_iff_mul_le hy

/-- Characterisation of `floorDiv` for a negative divisor:
`n ≤ floorDiv x y ↔ x ≤ n * y`. -/
theorem le_floorDiv_iff_neg (x y n : Int) (hy : y < 0) :
    n ≤ floorDiv x y ↔ x ≤ n * y := by
  rw [floorDiv, if_neg (by omega)]
  rw [Int.le_ediv_iff_mul_le (by omega : (0:Int) < -y)]
  constructor <;> intro h <;> nlinarith

/-- Characterisation of `ceilDiv` for a positive divisor:
`ceilDiv x y ≤ n ↔ x ≤ n * y`. -/
theorem ceilDiv_le_iff_pos (x y n : Int) (hy : 0 < y) :
    ceilDiv x y ≤ n ↔ x ≤ n * y := by
  rw [ceilDiv, if_pos hy, neg_le, Int.le_ediv_iff_mul_le hy]
  constructor <;> intro h <;> nlinarith

/-- Characterisation of `ceilDiv` for a negative divisor:
`ceilDiv x y ≤ n ↔ n * y ≤ x`. -/
theorem ceilDiv_le_iff_neg (x y n : Int) (hy : y < 0) :
    ceilDiv x y ≤ n ↔ n * y ≤ x := by
  rw [ceilDiv, if_neg (by omega), neg_le,
    Int.le_ediv_iff_mul_le (by omega : (0:Int) < -y)]
  constructor <;> intro h <;> nlinarith

/-- The integer formula `floorDiv` computes exactly
`math.floor` of the true quotient `x / y`, for every `y ≠ 0`. -/
theorem floorDiv_eq_floor (x y : Int) (hy : y ≠ 0) :
    floorDiv x y = ⌊(x : ℚ) / (y : ℚ)⌋ := by
  rcases lt_or_gt_of_ne hy with hneg | hpos
  · have hq : (y : ℚ) < 0 := by exact_mod_cast hneg
    symm
    rw [Int.floor_eq_iff]
    constructor
    · rw [le_div_iff_of_neg hq]
      have := (le_floorDiv_iff_neg x y (floorDiv x y) hneg).mp le_rfl
      exact_mod_cast this
    · rw [div_lt_iff_of_neg hq]
      have h2 : ¬ (floorDiv x y + 1 ≤ floorDiv x y) := by omega
      rw [le_floorDiv_iff_neg x y _ hneg] at h2
      push_neg at h2
      exact_mod_cast h2
  · have hq : (0 : ℚ) < (y : ℚ) := by exact_mod_cast hpos
    symm
    rw [Int.floor_eq_iff]
    constructor
    · rw [le_div_iff₀ hq]
      have := (le_floorDiv_iff_pos x y (floorDiv x y) hpos).mp le_rfl
      exact_mod_cast this
    · rw [div_lt_iff₀ hq]
      have h2 : ¬ (floorDiv x y + 1 ≤ floorDiv x y) := by omega
      rw [le_floorDiv_iff_pos x y _ hpos] at h2
      push_neg at h2
      exact_mod_cast h2

/-- The integer formula `ceilDiv` computes exactly
`math.ceil` of the true quotient `x / y`, for every `y ≠ 0`. -/
theorem ceilDiv_eq_ceil (x y : Int) (hy : y ≠ 0) :
    ceilDiv x y = ⌈(x : ℚ) / (y : ℚ)⌉ := by
  rcases lt_or_gt_of_ne hy with hneg | hpos
  · have hq : (y : ℚ) < 0 := by exact_mod_cast hneg
    symm
    rw [Int.ceil_eq_iff]
    constructor
    · rw [lt_div_iff_of_neg hq]
      have h2 : ¬ (ceilDiv x y ≤ ceilDiv x y - 1) := by omega
      rw [ceilDiv_le_iff_neg x y _ hneg] at h2
      push_neg at h2
      exact_mod_cast h2
    · rw [div_le_iff_of_neg hq]
      have := (ceilDiv_le_iff_neg x y (ceilDiv x y) hneg).mp le_rfl
      exact_mod_cast this
  · have hq : (0 : ℚ) < (y : ℚ) := by exact_mod_cast hpos
    symm
    rw [Int.ceil_eq_iff]
    constructor
    · rw [lt_div_iff₀ hq]
      have h2 : ¬ (ceilDiv x y ≤ ceilDiv x y - 1) := by omega
      rw [ceilDiv_le_iff_pos x y _ hpos] at h2
      push_neg at h2
      exact_mod_cast h2
    · rw [div_le_iff₀ hq]
      have := (ceilDiv_le_iff_pos x y (ceilDiv x y) hpos).mp le_rfl
      exact_mod_cast this

/-! ### Structural lemmas about the reducer -/

/-- Success of the reducer forces a positive divisor (the `v ≤ 0` guard is
checked before anything else). -/
theorem gcd_pos_of_ok (d v : Int) (qs : List Int) (x : Int × List Int)
    (h : gcd d v qs = .ok x) : 0 < v := by
  by_contra hv
  rw [gcd_eq_error d v qs (by omega)] at h
  exact absurd h (by simp)

/-- Auxiliary induction (on a bound for `v.toNat`) for `gcd_append`. -/
theorem gcd_append_aux :
    ∀ (n : Nat) (d v : Int) (qs : List Int), v.toNat ≤ n →
      gcd d v qs = (gcd d v []).map fun p => (p.1, qs ++ p.2) := by
  intro n
  induction n with
  | zero =>
    intro d v qs hn
    rw [gcd_eq_error d v qs (by omega), gcd_eq_error d v [] (by omega)]
    rfl
  | succ n ih =>
    intro d v qs hn
    by_cases hv : v ≤ 0
    · rw [gcd_eq_error d v qs hv, gcd_eq_error d v [] hv]; rfl
    · have hv' : 0 < v := by omega
      by_cases hr : d % v = 0
      · rw [gcd_eq_last d v qs hv' hr, gcd_eq_last d v [] hv' hr]
        simp [Except.map]
      · have hrlt : d % v < v := Int.emod_lt_of_pos d hv'
        have hrnn : 0 ≤ d % v := Int.emod_nonneg d (by omega)
        have hle : (d % v).toNat ≤ n := by omega
        rw [gcd_eq_step d v qs hv' hr, gcd_eq_step d v [] hv' hr,
          ih v (d % v) (qs ++ [d / v]) hle, List.nil_append,
          ih v (d % v) [d / v] hle]
        cases gcd v (d % v) [] <;> simp [Except.map]

/-- The reducer is a pure function of `(d, v)` up to the accumulator: the
call on any quotient list `qs` returns exactly the result of the call on
the empty list with `qs` prepended to the produced quotients. -/
theorem gcd_append (d v : Int) (qs : List Int) :
    gcd d v qs = (gcd d v []).map fun p => (p.1, qs ++ p.2) :=
  gcd_append_aux v.toNat d v qs le_rfl

/-- One Euclidean swap-with-remainder step does not change `Int.gcd`. -/
theorem int_gcd_emod (d v : Int) :
    Int.gcd v (d % v) = Int.gcd d v := by
  apply Nat.dvd_antisymm
  · rw [← Int.natCast_dvd_natCast]
    apply Int.dvd_gcd
    · have h1 : (↑(Int.gcd v (d % v)) : Int) ∣ v := Int.gcd_dvd_left
      have h2 : (↑(Int.gcd v (d % v)) : Int) ∣ d % v := Int.gcd_dvd_right
      have h3 := dvd_add h2 (h1.mul_right (d / v))
      rwa [Int.emod_add_ediv d v] at h3
    · exact Int.gcd_dvd_left
  · rw [← Int.natCast_dvd_natCast]
    apply Int.dvd_gcd
    · exact Int.gcd_dvd_right
    · rw [Int.emod_def]
      exact dvd_sub Int.gcd_dvd_left (Int.gcd_dvd_right.mul_right _)

/-- Auxiliary induction for `gcd_ok_of_pos`. -/
theorem gcd_ok_aux :
    ∀ (n : Nat) (d v : Int), v.toNat ≤ n → 0 < v →
      ∃ Q : List Int,
        gcd d v [] = .ok ((Int.gcd d v : Int), Q) ∧ Q.length ≤ v.toNat := by
  intro n
  induction n with
  | zero => intro d v hn hv; omega
  | succ n ih =>
    intro d v hn hv
    by_cases hr : d % v = 0
    · refine ⟨[], ?_, by simp⟩
      have hdvd : v ∣ d := Int.dvd_of_emod_eq_zero hr
      rw [gcd_eq_last d v [] hv hr, Int.gcd_eq_right hdvd,
        Int.natAbs_of_nonneg hv.le]
    · have hrlt : d % v < v := Int.emod_lt_of_pos d hv
      have hrnn : 0 ≤ d % v := Int.emod_nonneg d (by omega)
      have hrpos : 0 < d % v := by omega
      obtain ⟨Q, hQ, hlen⟩ := ih v (d % v) (by omega) hrpos
      refine ⟨d / v :: Q, ?_, ?_⟩
      · rw [gcd_eq_step d v [] hv hr, gcd_append v (d % v) ([] ++ [d / v]), hQ]
        simp [Except.map, int_gcd_emod d v]
      · simp only [List.length_cons]
        omega

/-- Totality and value of the reducer: for `v > 0` it succeeds, the
returned gcd is `Int.gcd d v`, and the quotient list is no longer than
`v` (each recursive call strictly decreases the divisor). -/
theorem gcd_ok_of_pos (d v : Int) (hv : 0 < v) :
    ∃ Q : List Int,
      gcd d v [] = .ok ((Int.gcd d v : Int), Q) ∧ Q.length ≤ v.toNat :=
  gcd_ok_aux v.toNat d v le_rfl hv

/-- The gcd returned by a successful reduction is `Int.gcd d v`. -/
theorem gcd_fst_eq (d v g : Int) (qs Q : List Int)
    (h : gcd d v qs = .ok (g, Q)) : g = (Int.gcd d v : Int) := by
  have hv := gcd_pos_of_ok d v qs _ h
  obtain ⟨Q', hQ', _⟩ := gcd_ok_of_pos d v hv
  rw [gcd_append d v qs, hQ'] at h
  simp only [Except.map, Except.ok.injEq, Prod.mk.injEq] at h
  exact h.1.symm

/-- An empty quotient list can only come out of the terminal step, whose
gcd is the divisor itself. -/
theorem gcd_nil_snd (d v g : Int) (h : gcd d v [] = .ok (g, [])) : g = v := by
  have hv := gcd_pos_of_ok d v [] _ h
  by_cases hr : d % v = 0
  · rw [gcd_eq_last d v [] hv hr] at h
    simp only [Except.ok.injEq, Prod.mk.injEq] at h
    exact h.1.symm
  · rw [gcd_eq_step d v [] hv hr,
      gcd_append v (d % v) ([] ++ [d / v])] at h
    cases hE : gcd v (d % v) [] with
    | error e => rw [hE] at h; simp [Except.map] at h
    | ok pQ => rw [hE] at h; simp [Except.map] at h

/-! ### Correctness of the back-substitution -/

/-- Invariant of the forward back-substitution: if the two carried
coefficient pairs represent `d` and `v` as combinations of fixed `D` and
`V`, then folding over the quotient list of `(d, v)` produces a pair
representing the gcd. -/
theorem backSub_inv_aux :
    ∀ (n : Nat) (d v : Int), v.toNat ≤ n → 0 < v →
      ∀ (g : Int) (Q : List Int), gcd d v [] = .ok (g, Q) →
        ∀ (D V : Int) (pr cu : Int × Int),
          pr.1 * D + pr.2 * V = d → cu.1 * D + cu.2 * V = v →
          (backSub pr cu Q).1 * D + (backSub pr cu Q).2 * V = g := by
  intro n
  induction n with
  | zero => intro d v hn hv; omega
  | succ n ih =>
    intro d v hn hv g Q hQ D V pr cu hpr hcu
    by_cases hr : d % v = 0
    · rw [gcd_eq_last d v [] hv hr] at hQ
      simp only [Except.ok.injEq, Prod.mk.injEq] at hQ
      obtain ⟨hg, hQnil⟩ := hQ
      subst hg
      subst hQnil
      simpa [backSub] using hcu
    · have hrlt : d % v < v := Int.emod_lt_of_pos d hv
      have hrnn : 0 ≤ d % v := Int.emod_nonneg d (by omega)
      have hrpos : 0 < d % v := by omega
      rw [gcd_eq_step d v [] hv hr,
        gcd_append v (d % v) ([] ++ [d / v])] at hQ
      cases hE : gcd v (d % v) [] with
      | error e => rw [hE] at hQ; simp [Except.map] at hQ
      | ok pQ =>
        rw [hE] at hQ
        simp only [Except.map, Except.ok.injEq, Prod.mk.injEq,
          List.nil_append, List.singleton_append] at hQ
        obtain ⟨hg, hQ2⟩ := hQ
        subst hg
        subst hQ2
        simp only [backSub]
        apply ih v (d % v) (by omega) hrpos pQ.1 pQ.2 hE D V cu
          (pr.1 - d / v * cu.1, pr.2 - d / v * cu.2) hcu
        show (pr.1 - d / v * cu.1) * D + (pr.2 - d / v * cu.2) * V = d % v
        rw [Int.emod_def]
        linear_combination hpr - (d / v) * hcu

/-- Correctness of `lincomb`: for `v > 0` it succeeds, returns the gcd of
`d` and `v`, and its coefficients witness the Bézout identity. -/
theorem lincomb_eq (d v : Int) (hv : 0 < v) :
    ∃ a b : Int, lincomb d v = .ok ((Int.gcd d v : Int), a, b) ∧
      a * d + b * v = (Int.gcd d v : Int) := by
  obtain ⟨Q, hQ, _⟩ := gcd_ok_of_pos d v hv
  cases Q with
  | nil =>
    have hgv : ((Int.gcd d v : Int)) = v := gcd_nil_snd d v _ hQ
    refine ⟨0, 1, ?_, by rw [hgv]; ring⟩
    simp only [lincomb, hQ]
  | cons q0 rest =>
    refine ⟨(backSub (0, 1) (1, -q0) rest).1,
      (backSub (0, 1) (1, -q0) rest).2, ?_, ?_⟩
    · simp only [lincomb, hQ]
    · have hbridge :
          backSub ((0 : Int), (1 : Int)) (1, -q0) rest =
            backSub (1, 0) (0, 1) (q0 :: rest) := by
        simp [backSub]
      rw [hbridge]
      exact backSub_inv_aux v.toNat d v le_rfl hv _ _ hQ d v (1, 0) (0, 1)
        (by ring) (by ring)

/-! ### The enumerated solution list -/

/-- Length of the enumeration: one entry per integer `n` in
`[lower, upper]`. -/
theorem solRange_length (m a b d v lo up : Int) :
    (solRange m a b d v lo up).length = (up + 1 - lo).toNat := by
  simp only [solRange, List.length_map, List.length_range]

/-- Membership in the enumeration: exactly the images of the integers
`n ∈ [lower, upper]` under the solution-family map. -/
theorem mem_solRange (m a b d v lo up : Int) (x : Int × Int) :
    x ∈ solRange m a b d v lo up ↔
      ∃ n : Int, lo ≤ n ∧ n ≤ up ∧ x = (m * a + n * v, m * b - n * d) := by
  simp only [solRange, List.mem_map, List.mem_range]
  constructor
  · rintro ⟨k, hk, rfl⟩
    refine ⟨lo + k, by omega, by omega, rfl⟩
  · rintro ⟨n, h1, h2, rfl⟩
    refine ⟨(n - lo).toNat, by omega, ?_⟩
    have hcast : ((n - lo).toNat : Int) = n - lo := Int.toNat_of_nonneg (by omega)
    rw [hcast, Prod.mk.injEq]
    constructor <;> ring

/-- Entry `i` of the enumeration is the image of `n = lower + i`. -/
theorem solRange_getElem (m a b d v lo up : Int) (i : Nat)
    (hi : i < (up + 1 - lo).toNat) :
    (solRange m a b d v lo up)[i]? =
      some (m * a + (lo + i) * v, m * b - (lo + i) * d) := by
  simp only [solRange, List.getElem?_map, List.getElem?_range hi,
    Option.map_some']

/-! ### Inversion of a successful `diophantine` call -/

/-- Inversion lemma: a successful call has `v > 0` and `p < q`, and its
result is either the empty list or the enumeration of the solution family
produced by the branch of the source that matches `v_constraint` and the
sign of `d`, with the Bézout identity and the exact divisibility of `w`
available. -/
theorem dio_ok_shape (d v w p q : Int) (vc : Bool) (sols : List (Int × Int))
    (h : diophantine d v w p q vc = .ok sols) :
    0 < v ∧ p < q ∧
      (sols = [] ∨
        ∃ a b : Int,
          a * d + b * v = (Int.gcd d v : Int) ∧
          w = (Int.gcd d v : Int) * (w / (Int.gcd d v : Int)) ∧
          ((vc = false ∧
              sols = solRange (w / ↑(Int.gcd d v)) a b d v
                (ceilDiv (p - w / ↑(Int.gcd d v) * a) v)
                (floorDiv (q - w / ↑(Int.gcd d v) * a) v)) ∨
            (vc = true ∧ 0 < d ∧
              sols = solRange (w / ↑(Int.gcd d v)) a b d v
                (ceilDiv (w / ↑(Int.gcd d v) * b - q) d)
                (floorDiv (w / ↑(Int.gcd d v) * b - p) d)) ∨
            (vc = true ∧ d < 0 ∧
              sols = solRange (w / ↑(Int.gcd d v)) a b d v
                (ceilDiv (w / ↑(Int.gcd d v) * b - p) d)
                (floorDiv (w / ↑(Int.gcd d v) * b - q) d)))) := by
  have hpq : p < q := by
    by_contra hqp
    simp only [diophantine] at h
    rw [if_pos (by omega : p ≥ q)] at h
    exact absurd h (by simp)
  have hv : 0 < v := by
    by_contra hvn
    have hge : gcd d v [] = .error .invalidDivisor :=
      gcd_eq_error _ _ _ (by omega)
    simp only [diophantine, hge] at h
    rw [if_neg (by omega : ¬ p ≥ q)] at h
    exact absurd h (by simp)
  refine ⟨hv, hpq, ?_⟩
  obtain ⟨Q, hgcd, _⟩ := gcd_ok_of_pos d v hv
  obtain ⟨a, b, hlin, hab⟩ := lincomb_eq d v hv
  simp only [diophantine, hgcd, hlin] at h
  rw [if_neg (by omega : ¬ p ≥ q)] at h
  by_cases hr : w % (Int.gcd d v : Int) = 0
  · rw [if_neg (by simpa using hr)] at h
    right
    refine ⟨a, b, hab, (Int.mul_ediv_cancel_of_emod_eq_zero hr).symm, ?_⟩
    by_cases hvc : vc = false
    · rw [if_pos hvc] at h
      exact Or.inl ⟨hvc, (Except.ok.inj h).symm⟩
    · have hvct : vc = true := by revert hvc; cases vc <;> simp
      rw [if_neg hvc] at h
      by_cases hd : 0 < d
      · rw [if_pos hd] at h
        exact Or.inr (Or.inl ⟨hvct, hd, (Except.ok.inj h).symm⟩)
      · rw [if_neg hd] at h
        by_cases hd0 : d = 0
        · rw [if_pos hd0] at h
          exact absurd h (by simp)
        · rw [if_neg hd0] at h
          exact Or.inr (Or.inr ⟨hvct, by omega, (Except.ok.inj h).symm⟩)
  · rw [if_pos hr] at h
    exact Or.inl (Except.ok.inj h).symm

/-- When the right-hand side is not a multiple of the gcd, the solver
returns the empty list (shared success-path lemma). -/
theorem dio_ok_empty (d v w p q : Int) (vc : Bool) (hv : 0 < v) (hpq : p < q)
    (hw : w % (Int.gcd d v : Int) ≠ 0) :
    diophantine d v w p q vc = .ok [] := by
  obtain ⟨Q, hgcd, _⟩ := gcd_ok_of_pos d v hv
  simp only [diophantine, hgcd]
  rw [if_neg (by omega : ¬ p ≥ q), if_pos hw]

/-! ### Evaluations on concrete inputs -/

/-- Reduction trace of `(23, 31)`: quotients `[0, 1, 2, 1]`, gcd `1`. -/
theorem gcd_23_31 : gcd 23 31 [] = .ok (1, [0, 1, 2, 1]) :=
  (gcd_eq_step 23 31 [] (by decide) (by decide)).trans
    ((gcd_eq_step 31 23 [0] (by decide) (by decide)).trans
      ((gcd_eq_step 23 8 [0, 1] (by decide) (by decide)).trans
        ((gcd_eq_step 8 7 [0, 1, 2] (by decide) (by decide)).trans
          (gcd_eq_last 7 1 [0, 1, 2, 1] (by decide) (by decide)))))

/-- Bézout coefficients of `(23, 31)`: `-4 * 23 + 3 * 31 = 1`. -/
theorem lincomb_23_31 : lincomb 23 31 = .ok (1, -4, 3) := by
  simp only [lincomb, gcd_23_31]
  rfl

/-- Full run of the solver on `23 s + 31 t = 4` with `0 ≤ s ≤ 99`. -/
theorem dio_23_31 :
    diophantine 23 31 4 0 99 false = .ok [(15, -11), (46, -34), (77, -57)] := by
  simp only [diophantine, gcd_23_31, lincomb_23_31]
  rfl

/-- Reduction trace of `(6, 4)`: quotients `[1]`, gcd `2`. -/
theorem gcd_6_4 : gcd 6 4 [] = .ok (2, [1]) :=
  (gcd_eq_step 6 4 [] (by decide) (by decide)).trans
    (gcd_eq_last 4 2 [1] (by decide) (by decide))

/-- Bézout coefficients of `(6, 4)`: `1 * 6 + (-1) * 4 = 2`. -/
theorem lincomb_6_4 : lincomb 6 4 = .ok (2, 1, -1) := by
  simp only [lincomb, gcd_6_4]
  rfl

/-- Full run of the solver on `6 s + 4 t = 2` with `0 ≤ s ≤ 9`. -/
theorem dio_6_4 :
    diophantine 6 4 2 0 9 false = .ok [(1, -1), (5, -7), (9, -13)] := by
  simp only [diophantine, gcd_6_4, lincomb_6_4]
  rfl

/-- Reduction trace of `(0, 1)`: `1` divides `0`, no quotients. -/
theorem gcd_0_1 : gcd 0 1 [] = .ok (1, []) :=
  gcd_eq_last 0 1 [] (by decide) (by decide)

/-- Bézout coefficients of `(0, 1)`: empty quotient list, trivial pair. -/
theorem lincomb_0_1 : lincomb 0 1 = .ok (1, 0, 1) := by
  simp only [lincomb, gcd_0_1]

/-! ### Claims -/

/-- C1: for every integer `d` and every `v > 0`, `lincomb` (the spec's
`bezout`) succeeds and returns a triple `(g, a, b)` with `a*d + b*v = g`
and `g` equal to the greatest common divisor of `|d|` and `v`
(`Int.gcd d v` is by definition `Nat.gcd |d| |v|`, and `|v| = v` since
`v > 0`). -/
theorem bezout_identity (d v : Int) (hv : 0 < v) :
    ∃ a b : Int, lincomb d v = .ok ((Int.gcd d v : Int), a, b) ∧
      a * d + b * v = (Int.gcd d v : Int) ∧
      (Int.gcd d v : Int) = ((Nat.gcd d.natAbs v.natAbs : Nat) : Int) := by
  obtain ⟨a, b, h1, h2⟩ := lincomb_eq d v hv
  exact ⟨a, b, h1, h2, rfl⟩

/-- Witness for C1 at `(d, v) = (237, 141)`. -/
theorem bezout_identity_witness :
    (0 : Int) < 141 ∧
      ∃ a b : Int, lincomb 237 141 = .ok ((Int.gcd 237 141 : Int), a, b) ∧
        a * 237 + b * 141 = (Int.gcd 237 141 : Int) ∧
        (Int.gcd 237 141 : Int) =
          ((Nat.gcd (237 : Int).natAbs (141 : Int).natAbs : Nat) : Int) :=
  ⟨by decide, bezout_identity 237 141 (by decide)⟩

/-- C2: every pair `(s, t)` in a successful result of the solver satisfies
`s*d + t*v = w`, and satisfies `p ≤ s ≤ q` when the constraint flag is
false and `p ≤ t ≤ q` when it is true. -/
theorem solver_sound (d v w p q : Int) (vc : Bool) (sols : List (Int × Int))
    (s t : Int) (h : diophantine d v w p q vc = .ok sols)
    (hmem : (s, t) ∈ sols) :
    s * d + t * v = w ∧ (vc = false → p ≤ s ∧ s ≤ q) ∧
      (vc = true → p ≤ t ∧ t ≤ q) := by
  obtain ⟨hv, hpq, hshape⟩ := dio_ok_shape d v w p q vc sols h
  rcases hshape with hnil | ⟨a, b, hab, hw, hbr⟩
  · subst hnil; simp at hmem
  · rcases hbr with ⟨hvc, hsols⟩ | ⟨hvc, hd, hsols⟩ | ⟨hvc, hd, hsols⟩
    · subst hsols
      rw [mem_solRange] at hmem
      obtain ⟨n, h1, h2, heq⟩ := hmem
      obtain ⟨hs, ht⟩ := Prod.mk.injEq .. ▸ heq
      subst hs; subst ht
      refine ⟨by linear_combination (w / ↑(Int.gcd d v)) * hab - hw, ?_, ?_⟩
      · intro _
        have hlo := (ceilDiv_le_iff_pos _ v n hv).mp h1
        have hup := (le_floorDiv_iff_pos _ v n hv).mp h2
        constructor <;> linarith
      · intro hvt; rw [hvc] at hvt; exact absurd hvt (by decide)
    · subst hsols
      rw [mem_solRange] at hmem
      obtain ⟨n, h1, h2, heq⟩ := hmem
      obtain ⟨hs, ht⟩ := Prod.mk.injEq .. ▸ heq
      subst hs; subst ht
      refine ⟨by linear_combination (w / ↑(Int.gcd d v)) * hab - hw, ?_, ?_⟩
      · intro hvf; rw [hvc] at hvf; exact absurd hvf (by decide)
      · intro _
        have hlo := (ceilDiv_le_iff_pos _ d n hd).mp h1
        have hup := (le_floorDiv_iff_pos _ d n hd).mp h2
        constructor <;> linarith
    · subst hsols
      rw [mem_solRange] at hmem
      obtain ⟨n, h1, h2, heq⟩ := hmem
      obtain ⟨hs, ht⟩ := Prod.mk.injEq .. ▸ heq
      subst hs; subst ht
      refine ⟨by linear_combination (w / ↑(Int.gcd d v)) * hab - hw, ?_, ?_⟩
      · intro hvf; rw [hvc] at hvf; exact absurd hvf (by decide)
      · intro _
        have hlo := (ceilDiv_le_iff_neg _ d n hd).mp h1
        have hup := (le_floorDiv_iff_neg _ d n hd).mp h2
        constructor <;> linarith

/-- Witness for C2 on the run `diophantine 23 31 4 0 99 false` at its first
returned pair `(15, -11)`. -/
theorem solver_sound_witness :
    (15 : Int) * 23 + (-11 : Int) * 31 = 4 ∧
      (false = false → (0 : Int) ≤ 15 ∧ (15 : Int) ≤ 99) ∧
      (false = true → (0 : Int) ≤ -11 ∧ (-11 : Int) ≤ 99) :=
  solver_sound 23 31 4 0 99 false [(15, -11), (46, -34), (77, -57)] 15 (-11)
    dio_23_31 (by decide)

/-- C3: the completeness claim fails on the code.  On
`6 s + 4 t = 2` with `0 ≤ s ≤ 9` the solver returns
`[(1,-1), (5,-7), (9,-13)]`, yet `(3, -4)` also solves the equation with
`0 ≤ 3 ≤ 9` and is missing: the code steps through the solution family
with the homogeneous step `(v, -d)` where the full solution set has step
`(v/g, -d/g)`, so for `gcd(d, v) = 2` every other solution is skipped. -/
theorem solver_misses_solutions :
    diophantine 6 4 2 0 9 false = .ok [(1, -1), (5, -7), (9, -13)] ∧
      (3 : Int) * 6 + (-4 : Int) * 4 = 2 ∧ (0 : Int) ≤ 3 ∧ (3 : Int) ≤ 9 ∧
      ((3 : Int), (-4 : Int)) ∉ [((1 : Int), (-1 : Int)), (5, -7), (9, -13)] :=
  ⟨dio_6_4, by decide, by decide, by decide, by decide⟩

/-- C4 counterexample: with `v > 0` and `p < q`, the call
`diophantine 0 1 0 0 1 true` (bound on `t`, `d = 0`, `w` divisible by the
gcd) does not succeed and does not raise either documented error — it hits
Python's `ZeroDivisionError` in `ceil((m*b-p)/d)`. -/
theorem solver_zero_div_counterexample :
    diophantine 0 1 0 0 1 true = .error .zeroDivision ∧
      DioError.zeroDivision ≠ DioError.invalidDivisor ∧
      DioError.zeroDivision ≠ DioError.invalidRange := by
  refine ⟨?_, by decide, by decide⟩
  simp only [diophantine, gcd_0_1, lincomb_0_1]
  rfl

/-- C4 amended: with `v > 0` and `p < q` all three operations succeed —
except in the single case `d = 0` with the `v`-side constraint selected and
`w` a multiple of `gcd(d, v)`, where the solver raises a division-by-zero
fault instead. -/
theorem no_other_failures (d v w p q : Int) (vc : Bool) (hv : 0 < v)
    (hpq : p < q)
    (hzd : ¬ (vc = true ∧ d = 0 ∧ w % (Int.gcd d v : Int) = 0)) :
    (∃ x, gcd d v [] = .ok x) ∧ (∃ y, lincomb d v = .ok y) ∧
      (∃ sols, diophantine d v w p q vc = .ok sols) := by
  obtain ⟨Q, hgcd, _⟩ := gcd_ok_of_pos d v hv
  obtain ⟨a, b, hlin, _⟩ := lincomb_eq d v hv
  refine ⟨⟨_, hgcd⟩, ⟨_, hlin⟩, ?_⟩
  by_cases hr : w % (Int.gcd d v : Int) = 0
  · simp only [diophantine, hgcd, hlin]
    rw [if_neg (by omega : ¬ p ≥ q), if_neg (by simpa using hr)]
    by_cases hvc : vc = false
    · rw [if_pos hvc]; exact ⟨_, rfl⟩
    · have hvct : vc = true := by revert hvc; cases vc <;> simp
      rw [if_neg hvc]
      by_cases hd : 0 < d
      · rw [if_pos hd]; exact ⟨_, rfl⟩
      · have hd0 : d ≠ 0 := fun h0 => hzd ⟨hvct, h0, hr⟩
        rw [if_neg hd, if_neg hd0]; exact ⟨_, rfl⟩
  · exact ⟨[], dio_ok_empty d v w p q vc hv hpq hr⟩

/-- Witness for the amended C4 at `(23, 31, 4, 0, 99, true)`. -/
theorem no_other_failures_witness :
    (∃ x, gcd 23 31 [] = .ok x) ∧ (∃ y, lincomb 23 31 = .ok y) ∧
      (∃ sols, diophantine 23 31 4 0 99 true = .ok sols) :=
  no_other_failures 23 31 4 0 99 true (by decide) (by decide) (by decide)

/-- C5 counterexample: at `d = 6`, `v = 3` (where `v` divides `d`, so
`d mod v = 0`) the first reduction succeeds with gcd `3` but
`reduce(v, d mod v)` raises `InvalidDivisor` instead of yielding a gcd. -/
theorem gcd_swap_counterexample :
    gcd 6 3 [] = .ok (3, []) ∧
      gcd 3 ((6 : Int) % 3) [] = .error .invalidDivisor :=
  ⟨gcd_eq_last 6 3 [] (by decide) (by decide),
    gcd_eq_error 3 ((6 : Int) % 3) [] (by decide)⟩

/-- C5 amended: for every `d` and every `v > 0` with `d mod v ≠ 0`, the
reductions of `(d, v)` and of `(v, d mod v)` both succeed and yield the
same gcd. -/
theorem gcd_swap_invariant (d v : Int) (hv : 0 < v) (hr : d % v ≠ 0) :
    ∃ g : Int, ∃ Q₁ Q₂ : List Int,
      gcd d v [] = .ok (g, Q₁) ∧ gcd v (d % v) [] = .ok (g, Q₂) := by
  have hrpos : 0 < d % v := by
    have := Int.emod_nonneg d (by omega : v ≠ 0)
    omega
  obtain ⟨Q₁, h1, _⟩ := gcd_ok_of_pos d v hv
  obtain ⟨Q₂, h2, _⟩ := gcd_ok_of_pos v (d % v) hrpos
  refine ⟨(Int.gcd d v : Int), Q₁, Q₂, h1, ?_⟩
  rw [h2, int_gcd_emod d v]

/-- Witness for the amended C5 at `(d, v) = (5, 2)`. -/
theorem gcd_swap_invariant_witness :
    (0 : Int) < 2 ∧ (5 : Int) % 2 ≠ 0 ∧
      ∃ g : Int, ∃ Q₁ Q₂ : List Int,
        gcd 5 2 [] = .ok (g, Q₁) ∧ gcd 2 ((5 : Int) % 2) [] = .ok (g, Q₂) :=
  ⟨by decide, by decide, gcd_swap_invariant 5 2 (by decide) (by decide)⟩

/-- C6 counterexample: when both preconditions are violated at once
(`v = 0 ≤ 0` and `p = 1 ≥ 0 = q`), the solver raises `InvalidRange`, not
`InvalidDivisor` — the range check precedes the divisor check, so the rule
"v ≤ 0 always raises InvalidDivisor" fails for this entry point. -/
theorem range_check_first :
    diophantine 1 0 0 1 0 false = .error .invalidRange ∧
      DioError.invalidRange ≠ DioError.invalidDivisor :=
  ⟨rfl, by decide⟩

/-- C6 amended: `p ≥ q` always raises `InvalidRange` from the solver;
`v ≤ 0` always raises `InvalidDivisor` from `gcd` (reduce) and `lincomb`
(bezout), and from the solver whenever `p < q` — when both preconditions
are violated the solver reports `InvalidRange`, because its range check
comes first. -/
theorem error_precedence (d v w p q : Int) (vc : Bool) (qs : List Int) :
    (p ≥ q → diophantine d v w p q vc = .error .invalidRange) ∧
    (v ≤ 0 → gcd d v qs = .error .invalidDivisor ∧
      lincomb d v = .error .invalidDivisor ∧
      (p < q → diophantine d v w p q vc = .error .invalidDivisor)) := by
  constructor
  · intro hpq
    simp only [diophantine]
    rw [if_pos hpq]
  · intro hv
    have hg : gcd d v [] = .error .invalidDivisor := gcd_eq_error d v [] hv
    refine ⟨gcd_eq_error d v qs hv, ?_, ?_⟩
    · simp only [lincomb, hg]
    · intro hpq
      simp only [diophantine, hg]
      rw [if_neg (by omega : ¬ p ≥ q)]

/-- Witness for the amended C6: all three operations at `v = 0` with
`p < q`, and the solver at `p ≥ q`. -/
theorem error_precedence_witness :
    gcd 1 0 [] = .error .invalidDivisor ∧
      lincomb 1 0 = .error .invalidDivisor ∧
      diophantine 1 0 5 0 1 false = .error .invalidDivisor ∧
      diophantine 1 0 5 1 0 false = .error .invalidRange := by
  obtain ⟨g1, l1, d1⟩ :=
    (error_precedence 1 0 5 0 1 false []).2 (by decide)
  exact ⟨g1, l1, d1 (by decide),
    (error_precedence 1 0 5 1 0 false []).1 (by decide)⟩

/-- C7: the Reducer is a pure function of exactly `(d, v)`.  The Python
function's only effect is appending to the list it was handed; with that
list made an explicit input/output, the call on any accumulator `qs` is
determined by the call on the empty accumulator — gcd and produced
quotient suffix depend on `(d, v)` alone, and nothing outside the returned
value is touched. -/
theorem reducer_pure (d v : Int) (qs : List Int) :
    gcd d v qs = (gcd d v []).map fun p => (p.1, qs ++ p.2) :=
  gcd_append d v qs

/-- C9: for every `d` and every `v > 0` the Reducer terminates with a
result (totality under the precondition), and its recursion depth — one
recursive call per produced quotient — is bounded by the number of
Euclidean reduction steps, itself at most `v`. -/
theorem reducer_terminates (d v : Int) (qs : List Int) (hv : 0 < v) :
    ∃ g : Int, ∃ Q : List Int,
      gcd d v qs = .ok (g, qs ++ Q) ∧ Q.length ≤ v.toNat := by
  obtain ⟨Q, hQ, hlen⟩ := gcd_ok_of_pos d v hv
  refine ⟨(Int.gcd d v : Int), Q, ?_, hlen⟩
  rw [gcd_append d v qs, hQ]
  rfl

/-- Witness for C9 at `(237, 141)`. -/
theorem reducer_terminates_witness :
    (0 : Int) < 141 ∧
      ∃ g : Int, ∃ Q : List Int,
        gcd 237 141 [] = .ok (g, [] ++ Q) ∧ Q.length ≤ (141 : Int).toNat :=
  ⟨by decide, reducer_terminates 237 141 [] (by decide)⟩

/-- C8: whenever `w` is not a multiple of `gcd(d, v)` (and the inputs pass
the guards `v > 0`, `p < q`), the solver returns the empty sequence, for
either value of the constraint flag. -/
theorem solver_empty_of_not_dvd (d v w p q : Int) (vc : Bool) (hv : 0 < v)
    (hpq : p < q) (hw : w % (Int.gcd d v : Int) ≠ 0) :
    diophantine d v w p q vc = .ok [] :=
  dio_ok_empty d v w p q vc hv hpq hw

/-- Witness for C8 at `(24, 18, 3, 0, 99, true)`: `gcd(24, 18) = 6` does
not divide `3`. -/
theorem solver_empty_of_not_dvd_witness :
    (0 : Int) < 18 ∧ (0 : Int) < 99 ∧
      (3 : Int) % (Int.gcd 24 18 : Int) ≠ 0 ∧
      diophantine 24 18 3 0 99 true = .ok [] :=
  ⟨by decide, by decide, by decide,
    solver_empty_of_not_dvd 24 18 3 0 99 true (by decide) (by decide)
      (by decide)⟩

/-- C10: consecutive entries of a successful solver result differ by
exactly the homogeneous step `(v, -d)`: the output is the family
`(m*a + n*v, m*b - n*d)` over consecutive integers `n` in increasing
order. -/
theorem solver_consecutive (d v w p q : Int) (vc : Bool)
    (sols : List (Int × Int)) (i : Nat) (s₁ t₁ s₂ t₂ : Int)
    (h : diophantine d v w p q vc = .ok sols)
    (hx : sols[i]? = some (s₁, t₁)) (hy : sols[i + 1]? = some (s₂, t₂)) :
    s₂ - s₁ = v ∧ t₂ - t₁ = -d := by
  obtain ⟨hv, hpq, hshape⟩ := dio_ok_shape d v w p q vc sols h
  rcases hshape with hnil | ⟨a, b, hab, hw, hbr⟩
  · subst hnil; simp at hx
  · have hform : ∃ lo up mm : Int, sols = solRange mm a b d v lo up := by
      rcases hbr with ⟨_, hsols⟩ | ⟨_, _, hsols⟩ | ⟨_, _, hsols⟩ <;>
        exact ⟨_, _, _, hsols⟩
    obtain ⟨lo, up, mm, hsols⟩ := hform
    subst hsols
    have hi1 : i + 1 < (up + 1 - lo).toNat := by
      by_contra hcon
      have hnone : (solRange mm a b d v lo up)[i + 1]? = none :=
        List.getElem?_eq_none (by rw [solRange_length]; omega)
      rw [hnone] at hy
      exact absurd hy (by simp)
    have hi0 : i < (up + 1 - lo).toNat := by omega
    rw [solRange_getElem mm a b d v lo up i hi0] at hx
    rw [solRange_getElem mm a b d v lo up (i + 1) hi1] at hy
    simp only [Option.some.injEq, Prod.mk.injEq] at hx hy
    obtain ⟨hs1, ht1⟩ := hx
    obtain ⟨hs2, ht2⟩ := hy
    subst hs1; subst ht1; subst hs2; subst ht2
    constructor <;> push_cast <;> ring

/-- Witness for C10 on the run `diophantine 23 31 4 0 99 false` at the
first two returned pairs. -/
theorem solver_consecutive_witness :
    (46 : Int) - 15 = 31 ∧ (-34 : Int) - -11 = -23 :=
  solver_consecutive 23 31 4 0 99 false [(15, -11), (46, -34), (77, -57)] 0
    15 (-11) 46 (-34) dio_23_31 rfl rfl

end Diophantine
